import Mathlib

/-!
Verification of the `deadsy/bcx` repository: a SHA-256 implementation
(two independent codepaths), a Base58 encoder, and small helpers.

Byte sequences are modelled as `List Nat` (each byte a value `< 256` where
that matters), 32-bit machine words as `Nat` with explicit reduction
modulo `2^32`, and 64-bit machine integers as `Nat` modulo `2^64`.
-/

namespace Bcx

/-- `2^32`, the modulus of Go `uint32` arithmetic. -/
def M32 : Nat := 4294967296

/-- `2^64`, the modulus of Go `uint64` arithmetic. -/
def M64 : Nat := 18446744073709551616

/-- Go `uint32` addition (wrapping). -/
def add32 (a b : Nat) : Nat := (a + b) % M32

/-- `rRotate` from src/sha2/sha2.go: `bits.RotateLeft32(x, -k)`, a right
rotation of a 32-bit word. -/
def rRotate (x n : Nat) : Nat := ((x >>> n) ||| (x <<< (32 - n))) % M32

/-- Go `^x` (bitwise complement) on a `uint32` value. -/
def not32 (x : Nat) : Nat := x ^^^ 4294967295

/-- `hInit` from src/sha2/sha2.go (identical to `hInit` in the unnamed
sha2 source file): the SHA-256 initial hash value (source hex constants
written here in decimal, 0x6a09e667 = 1779033703 and so on). -/
def hInit : List Nat :=
  [1779033703, 3144134277, 1013904242, 2773480762,
   1359893119, 2600822924, 528734635, 1541459225]

/-- `k` from src/sha2/sha2.go (identical to `k` in the unnamed sha2
source file): the 64 SHA-256 round constants (source hex constants
written here in decimal, 0x428a2f98 = 1116352408 and so on). -/
def kConst : List Nat :=
  [1116352408, 1899447441, 3049323471, 3921009573, 961987163, 1508970993,
   2453635748, 2870763221, 3624381080, 310598401, 607225278, 1426881987,
   1925078388, 2162078206, 2614888103, 3248222580, 3835390401, 4022224774,
   264347078, 604807628, 770255983, 1249150122, 1555081692, 1996064986,
   2554220882, 2821834349, 2952996808, 3210313671, 3336571891, 3584528711,
   113926993, 338241895, 666307205, 773529912, 1294757372, 1396182291,
   1695183700, 1986661051, 2177026350, 2456956037, 2730485921, 2820302411,
   3259730800, 3345764771, 3516065817, 3600352804, 4094571909, 275423344,
   430227734, 506948616, 659060556, 883997877, 958139571, 1322822218,
   1537002063, 1747873779, 1955562222, 2024104815, 2227730452, 2361852424,
   2428436474, 2756734187, 3204031479, 3329325298]

/-- `pad512` (identical function bodies in src/sha2/sha2.go lines 155-181
and the unnamed sha2 source file): append `pad` zero bytes where
`pad = 64 - n % 64` (plus 64 more if that leaves fewer than the 9 bytes
needed for the `0x80` marker and the length field), then overwrite the
byte at index `n` with `0x80` and the last 8 appended bytes with the
big-endian `uint64` bit length `8*n`. -/
def pad512 (data : List Nat) : List Nat :=
  let n := data.length
  let pad0 := 64 - n % 64
  let pad := if pad0 < 9 then pad0 + 64 else pad0
  let d0 := data ++ List.replicate pad 0
  let d1 := d0.set n 0x80
  let e := n + pad - 1
  let n8 := (8 * n) % M64
  ((((((((d1.set (e-7) ((n8 >>> 56) % 256)).set (e-6) ((n8 >>> 48) % 256)).set
      (e-5) ((n8 >>> 40) % 256)).set (e-4) ((n8 >>> 32) % 256)).set
      (e-3) ((n8 >>> 24) % 256)).set (e-2) ((n8 >>> 16) % 256)).set
      (e-1) ((n8 >>> 8) % 256)).set e (n8 % 256))

/-- `conv8to32` from src/sha2/sha2.go: convert a byte slice to a slice of
big-endian 32-bit words (`dst[i]` built from `src[4i..4i+3]`). -/
def conv8to32 (src : List Nat) : List Nat :=
  (List.range (src.length / 4)).map fun i =>
    ((src.getD (4*i) 0) <<< 24) ||| ((src.getD (4*i+1) 0) <<< 16) |||
    ((src.getD (4*i+2) 0) <<< 8) ||| (src.getD (4*i+3) 0)

/-- `conv32to8` from src/sha2/sha2.go (identical to `util.Conv32to8`):
serialize 32-bit words to bytes, big-endian per word. -/
def conv32to8 (src : List Nat) : List Nat :=
  src.foldr (fun x acc =>
    ((x >>> 24) % 256) :: ((x >>> 16) % 256) :: ((x >>> 8) % 256) :: (x % 256) :: acc) []

/-- One extension step of the SHA-256 message schedule: the word
`w[j] = w[j-16] + s0(w[j-15]) + w[j-7] + s1(w[j-2])` appended at the
current end `j = w.length` (identical formulas in both sha2 sources). -/
def schedW (w : List Nat) : Nat :=
  let v0 := w.getD (w.length - 15) 0
  let s0 := rRotate v0 7 ^^^ rRotate v0 18 ^^^ (v0 >>> 3)
  let v1 := w.getD (w.length - 2) 0
  let s1 := rRotate v1 17 ^^^ rRotate v1 19 ^^^ (v1 >>> 10)
  add32 (add32 (add32 (w.getD (w.length - 16) 0) s0) (w.getD (w.length - 7) 0)) s1

/-- Extend a 16-word message schedule by `n` further words. -/
def schedExt (w : List Nat) : Nat → List Nat
  | 0 => w
  | n+1 => schedExt (w ++ [schedW w]) n

/-- One SHA-256 compression round on the 8 working variables
`[a,b,c,d,e,f,g,h]` with round constant `kw.1` and schedule word `kw.2`
(identical formulas in both sha2 sources). -/
def sha2Round (st : List Nat) (kw : Nat × Nat) : List Nat :=
  match st with
  | [a, b, c, d, e, f, g, h] =>
    let s1 := rRotate e 6 ^^^ rRotate e 11 ^^^ rRotate e 25
    let ch := (e &&& f) ^^^ (not32 e &&& g)
    let tmp1 := add32 (add32 (add32 (add32 h s1) ch) kw.1) kw.2
    let s0 := rRotate a 2 ^^^ rRotate a 13 ^^^ rRotate a 22
    let mj := ((a &&& b) ^^^ (a &&& c)) ^^^ (b &&& c)
    let tmp2 := add32 s0 mj
    [add32 tmp1 tmp2, a, b, c, add32 d tmp1, e, f, g]
  | _ => st

/-- The 64 compression rounds over a full schedule `w`. -/
def sha2Compress (h w : List Nat) : List Nat :=
  (kConst.zip w).foldl sha2Round h

/-- Process one chunk given its 16 loaded words: run the schedule
extension and compression, then add the result into the chaining value
(`h[j] += work[j]`). -/
def processChunk (h ws : List Nat) : List Nat :=
  let w := schedExt ws 48
  let work := sha2Compress h w
  List.zipWith add32 h work

namespace Sha2V1

/-- `Sha2_256` from src/sha2/sha2.go lines 206-266: pad, convert the whole
padded buffer to 32-bit words, then process it in 16-word chunks, reading
chunk `i`'s word `j` at `data32[i*16+j]`. -/
def Sha2_256 (data : List Nat) : List Nat :=
  let p := pad512 data
  let data32 := conv8to32 p
  let h := (List.range (data32.length / 16)).foldl
    (fun h i => processChunk h ((List.range 16).map fun j => data32.getD (16*i + j) 0)) hInit
  conv32to8 h

end Sha2V1

namespace Sha2V2

/-- The word-loading loop of `Hash256.Add512` in the unnamed sha2 source
file: the 16 big-endian words of a 64-byte chunk, `w[i]` built from
`data[4i..4i+3]`. -/
def loadW (data : List Nat) : List Nat :=
  (List.range 16).map fun i =>
    ((data.getD (4*i) 0) <<< 24) ||| ((data.getD (4*i+1) 0) <<< 16) |||
    ((data.getD (4*i+2) 0) <<< 8) ||| (data.getD (4*i+3) 0)

/-- `Hash256.Add512` from the unnamed sha2 source file lines 174-228:
load the 16 words of one 64-byte chunk, extend the schedule, run the 64
compression rounds, and add the result into the receiver. -/
def Add512 (x data : List Nat) : List Nat :=
  let w := schedExt (loadW data) 48
  let work := sha2Compress x w
  List.zipWith add32 x work

/-- `Sha2_256` from the unnamed sha2 source file lines 230-244: pad, then
feed each 64-byte chunk `data[64i .. 64i+63]` to `Add512`, and serialize
with `Hash256.Bytes` (= `util.Conv32to8`). -/
def Sha2_256 (data : List Nat) : List Nat :=
  let p := pad512 data
  let x := (List.range (p.length / 64)).foldl
    (fun x i => Add512 x ((p.drop (64*i)).take 64)) hInit
  conv32to8 x

end Sha2V2

namespace Sha2V2

/-- Hexadecimal digit value of one character, as accepted by Go's
`encoding/hex` (`0-9`, `a-f`, `A-F`, case-insensitive). -/
def hexDigitVal (c : Char) : Option Nat :=
  if '0' ≤ c ∧ c ≤ '9' then some (c.toNat - '0'.toNat)
  else if 'a' ≤ c ∧ c ≤ 'f' then some (c.toNat - 'a'.toNat + 10)
  else if 'A' ≤ c ∧ c ≤ 'F' then some (c.toNat - 'A'.toNat + 10)
  else none

/-- Go `hex.DecodeString`: decode pairs of hex digits to bytes
(`hi<<4 | lo`); fail on an odd-length string or any non-hex character. -/
def decodeHexStr : List Char → Option (List Nat)
  | [] => some []
  | [_] => none
  | c1 :: c2 :: rest =>
    match hexDigitVal c1, hexDigitVal c2, decodeHexStr rest with
    | some v1, some v2, some l => some ((16 * v1 + v2) :: l)
    | _, _, _ => none

/-- `FromString` from the unnamed sha2 source file lines 113-124:
hex-decode the string, fail if that fails or if the result is not exactly
32 bytes, else convert to the 8-word `Hash256` with `util.Conv8to32`. -/
def FromString (s : List Char) : Option (List Nat) :=
  match decodeHexStr s with
  | none => none
  | some x => if x.length = 32 then some (conv8to32 x) else none

end Sha2V2

namespace Base58

/-- The fixed Base58 alphabet `chars` from src/base58/base58.go. -/
def chars : List Char :=
  "123456789ABCDEFGHJKLMNPQRSTUVWXYZabcdefghijkmnopqrstuvwxyz".toList

/-- `nChars = len(chars)` from src/base58/base58.go. -/
def nChars : Nat := chars.length

/-- The leading-zero-byte count: the first loop of `Encode` in
src/base58/base58.go. -/
def countZeroes : List Nat → Nat
  | [] => 0
  | b :: t => if b ≠ 0 then 0 else countZeroes t + 1

/-- The inner carry-propagation loop of `Encode` in src/base58/base58.go
lines 39-46: starting at index `j`, while `j > high` or the carry is
nonzero, fold the carry through `buf[j]` in base 58 (`carry += buf[j]<<8;
buf[j] = carry % 58; carry /= 58`), breaking out when `j` reaches 0;
returns the updated buffer and the exit value of `j` (the new `high`). -/
def encLoopInner : List Nat → Nat → Nat → Nat → List Nat × Nat
  | buf, high, carry, j =>
    if j > high ∨ carry ≠ 0 then
      let c := carry + (buf.getD j 0) * 256
      let buf1 := buf.set j (c % nChars)
      match j with
      | 0 => (buf1, 0)
      | j1+1 => encLoopInner buf1 high (c / nChars) j1
    else (buf, j)

/-- The digit buffer and high-water mark after the outer loop of `Encode`
in src/base58/base58.go lines 33-48: a buffer of
`(len(data)-zeroes)*137/100 + 1` cells, carrying in each input byte after
the leading zeroes. -/
def encodeState (data : List Nat) : List Nat × Nat :=
  let zeroes := countZeroes data
  let L := (data.length - zeroes) * 137 / 100 + 1
  (data.drop zeroes).foldl
    (fun st b => encLoopInner st.1 st.2 b (st.1.length - 1))
    (List.replicate L 0, L - 1)

/-- `Encode` from src/base58/base58.go lines 21-71: run the conversion
loops, strip leading zero-valued symbol cells, then emit one `'1'` per
leading zero byte followed by the alphabet characters of the remaining
cells. -/
def Encode (data : List Nat) : String :=
  let zeroes := countZeroes data
  let buf := (encodeState data).1.dropWhile (· == 0)
  String.mk (List.replicate zeroes '1' ++ buf.map fun v => chars.getD v ' ')

/-- A bounds-instrumented copy of `encLoopInner`: identical control flow,
but every buffer read is through `buf[j]?` and fails (returns `none`) if
the index is out of bounds. -/
def encLoopInnerChk : List Nat → Nat → Nat → Nat → Option (List Nat × Nat)
  | buf, high, carry, j =>
    if j > high ∨ carry ≠ 0 then
      match buf[j]? with
      | none => none
      | some bj =>
        let c := carry + bj * 256
        let buf1 := buf.set j (c % nChars)
        match j with
        | 0 => some (buf1, 0)
        | j1+1 => encLoopInnerChk buf1 high (c / nChars) j1
    else some (buf, j)

/-- A bounds-instrumented copy of `encodeState`, failing if any inner
loop access is out of bounds. -/
def encodeStateChk (data : List Nat) : Option (List Nat × Nat) :=
  let zeroes := countZeroes data
  let L := (data.length - zeroes) * 137 / 100 + 1
  (data.drop zeroes).foldl
    (fun st b => match st with
      | none => none
      | some st => encLoopInnerChk st.1 st.2 b (st.1.length - 1))
    (some (List.replicate L 0, L - 1))

/-- `Decode` from src/base58/base58.go lines 73-81, returning the Go pair
`([]byte, error)`: `(nil, errors.New "no input")` on an empty string and
`(nil, nil)` otherwise. -/
def Decode (s : List Char) : Option (List Nat) × Option String :=
  if s.length = 0 then (none, some "no input") else (none, none)

end Base58

/-! ## Reference definitions, modelled from the spec

The definitions in the `Ref` namespace are written from the wording of
spec.md §4.1 (the standard SHA-256 algorithm) and §4.2 (Base58 as
positional digits of a big-endian integer), to be compared with the
definitions taken from the source. -/

namespace Ref

/-- Modelled from the spec (§4.1 padding): the minimum number `K` of zero
bytes such that `n + 1 + K + 8` is a multiple of 64. -/
def KminZeros (n : Nat) : Nat := (64 - (n + 9) % 64) % 64

/-- The 8-byte big-endian encoding of a `uint64` value. -/
def be64 (m : Nat) : List Nat :=
  [(m >>> 56) % 256, (m >>> 48) % 256, (m >>> 40) % 256, (m >>> 32) % 256,
   (m >>> 24) % 256, (m >>> 16) % 256, (m >>> 8) % 256, m % 256]

/-- Modelled from the spec (§4.1): append the byte `0x80`, then the
minimum number of zero bytes, then the 8-byte big-endian original
bit-length `8 × n`, so that the total length is a multiple of 64. -/
def padSpec (d : List Nat) : List Nat :=
  d ++ 0x80 :: (List.replicate (KminZeros d.length) 0 ++ be64 ((8 * d.length) % M64))

/-- Modelled from the spec (§4.1): load 16 big-endian 32-bit words
directly from a 64-byte block. -/
def loadBlock (block : List Nat) : List Nat :=
  (List.range 16).map fun i =>
    ((block.getD (4*i) 0) <<< 24) ||| ((block.getD (4*i+1) 0) <<< 16) |||
    ((block.getD (4*i+2) 0) <<< 8) ||| (block.getD (4*i+3) 0)

/-- Modelled from the spec (§4.1 message schedule expansion):
`w[i] = w[i-16] + σ0(w[i-15]) + w[i-7] + σ1(w[i-2])` appended at the
current end, with `σ0(x) = rotr(x,7) XOR rotr(x,18) XOR (x >> 3)` and
`σ1(x) = rotr(x,17) XOR rotr(x,19) XOR (x >> 10)`. -/
def schedWSpec (w : List Nat) : Nat :=
  let v0 := w.getD (w.length - 15) 0
  let s0 := rRotate v0 7 ^^^ rRotate v0 18 ^^^ (v0 >>> 3)
  let v1 := w.getD (w.length - 2) 0
  let s1 := rRotate v1 17 ^^^ rRotate v1 19 ^^^ (v1 >>> 10)
  add32 (add32 (add32 (w.getD (w.length - 16) 0) s0) (w.getD (w.length - 7) 0)) s1

/-- Extend the 16 loaded words to the full 64-word schedule. -/
def schedExtSpec (w : List Nat) : Nat → List Nat
  | 0 => w
  | n+1 => schedExtSpec (w ++ [schedWSpec w]) n

/-- Modelled from the spec (§4.1 compression round pseudocode). -/
def roundSpec (st : List Nat) (kw : Nat × Nat) : List Nat :=
  match st with
  | [a, b, c, d, e, f, g, h] =>
    let s1 := rRotate e 6 ^^^ rRotate e 11 ^^^ rRotate e 25
    let ch := (e &&& f) ^^^ (not32 e &&& g)
    let tmp1 := add32 (add32 (add32 (add32 h s1) ch) kw.1) kw.2
    let s0 := rRotate a 2 ^^^ rRotate a 13 ^^^ rRotate a 22
    let mj := ((a &&& b) ^^^ (a &&& c)) ^^^ (b &&& c)
    let tmp2 := add32 s0 mj
    [add32 tmp1 tmp2, a, b, c, add32 d tmp1, e, f, g]
  | _ => st

/-- Modelled from the spec (§4.1): one 64-byte block folded into the
chaining value — 64 rounds, then per-register modulo-2^32 addition. -/
def blockSpec (h block : List Nat) : List Nat :=
  let w := schedExtSpec (loadBlock block) 48
  let work := (kConst.zip w).foldl roundSpec h
  List.zipWith add32 h work

/-- Modelled from the spec (§4.1): reference SHA-256 — pad, process the
64-byte blocks strictly in order from the initial chaining value, and
serialize the final chaining value as 8 big-endian 32-bit words. -/
def sha256Spec (d : List Nat) : List Nat :=
  let p := padSpec d
  let h := (List.range (p.length / 64)).foldl
    (fun h i => blockSpec h ((p.drop (64*i)).take 64)) hInit
  conv32to8 h

/-- The value of a digit string in base `B`, most significant digit
first. -/
def polyVal (B : Nat) (l : List Nat) : Nat := l.foldl (fun a d => a * B + d) 0

/-- The big-endian unsigned-integer value of a byte sequence. -/
def beNat (l : List Nat) : Nat := polyVal 256 l

/-- The canonical base-58 digits of `n`, most significant first, with no
leading zero digit (`[]` for `n = 0`). -/
def natToDigits58 (n : Nat) : List Nat :=
  if h : n = 0 then [] else natToDigits58 (n / 58) ++ [n % 58]
  termination_by n
  decreasing_by exact Nat.div_lt_self (Nat.pos_of_ne_zero h) (by norm_num)

/-- Modelled from the spec (§4.2): one `'1'` per leading zero byte, then
the base-58 digits of the remaining bytes read as a big-endian integer,
mapped through the alphabet. -/
def encodeSpec (d : List Nat) : String :=
  let z := Base58.countZeroes d
  String.mk (List.replicate z '1' ++
    (natToDigits58 (beNat (d.drop z))).map fun v => Base58.chars.getD v ' ')

end Ref

/-! ## Padding layout -/

/-- The pad amount chosen by `pad512` for an input of length `n`. -/
def padVal (n : Nat) : Nat :=
  if 64 - n % 64 < 9 then 64 - n % 64 + 64 else 64 - n % 64

/-- `pad512` with the pad amount abstracted, for the layout proof. -/
def padChain (data : List Nat) (pad : Nat) : List Nat :=
  let n := data.length
  let d1 := (data ++ List.replicate pad 0).set n 0x80
  let e := n + pad - 1
  let n8 := (8 * n) % M64
  ((((((((d1.set (e-7) ((n8 >>> 56) % 256)).set (e-6) ((n8 >>> 48) % 256)).set
      (e-5) ((n8 >>> 40) % 256)).set (e-4) ((n8 >>> 32) % 256)).set
      (e-3) ((n8 >>> 24) % 256)).set (e-2) ((n8 >>> 16) % 256)).set
      (e-1) ((n8 >>> 8) % 256)).set e (n8 % 256))

theorem pad512_eq_padChain (d : List Nat) : pad512 d = padChain d (padVal d.length) := rfl

theorem set_append_ge (P l : List Nat) (i x : Nat) (h : P.length ≤ i) :
    (P ++ l).set i x = P ++ l.set (i - P.length) x := by
  rw [List.set_append]
  split
  · omega
  · rfl

theorem set_at_append (P : List Nat) (a v : Nat) (R : List Nat) (k : Nat) (hk : k = P.length) :
    (P ++ a :: R).set k v = P ++ v :: R := by
  subst hk
  rw [set_append_ge _ _ _ _ (Nat.le_refl _)]
  simp

theorem set_last8 (P : List Nat) (k b7 b6 b5 b4 b3 b2 b1 b0 : Nat) (hk : k = P.length) :
    (((((((((P ++ [0,0,0,0,0,0,0,0]).set k b7).set (k+1) b6).set (k+2) b5).set
        (k+3) b4).set (k+4) b3).set (k+5) b2).set (k+6) b1).set (k+7) b0)
    = P ++ [b7, b6, b5, b4, b3, b2, b1, b0] := by
  subst hk
  rw [set_append_ge _ _ _ _ (Nat.le_refl _), set_append_ge _ _ _ _ (Nat.le_add_right _ _),
      set_append_ge _ _ _ _ (Nat.le_add_right _ _), set_append_ge _ _ _ _ (Nat.le_add_right _ _),
      set_append_ge _ _ _ _ (Nat.le_add_right _ _), set_append_ge _ _ _ _ (Nat.le_add_right _ _),
      set_append_ge _ _ _ _ (Nat.le_add_right _ _), set_append_ge _ _ _ _ (Nat.le_add_right _ _)]
  simp [Nat.add_sub_cancel_left, Nat.sub_self]

theorem padChain_layout (data : List Nat) (pad : Nat) (hp : 9 ≤ pad) :
    padChain data pad
    = data ++ 0x80 :: (List.replicate (pad - 9) 0 ++ Ref.be64 ((8 * data.length) % M64)) := by
  obtain ⟨m, rfl⟩ : ∃ m, pad = 9 + m := ⟨pad - 9, by omega⟩
  simp only [padChain, Ref.be64]
  generalize (8 * data.length) % M64 = n8
  rw [show (9 + m) = 1 + (m + 8) from by omega, List.replicate_add, List.replicate_add]
  rw [show List.replicate 1 (0:Nat) = [0] from rfl]
  rw [show ((([0] : List Nat) ++ (List.replicate m 0 ++ List.replicate 8 0)))
      = 0 :: (List.replicate m 0 ++ List.replicate 8 0) from rfl]
  rw [set_at_append data 0 0x80 _ data.length rfl]
  rw [show List.replicate 8 (0:Nat) = [0,0,0,0,0,0,0,0] from rfl]
  rw [show data ++ 0x80 :: (List.replicate m 0 ++ [0,0,0,0,0,0,0,0])
      = (data ++ 0x80 :: List.replicate m 0) ++ [0,0,0,0,0,0,0,0] from by
        simp [List.append_assoc]]
  generalize he : data.length + (1 + (m + 8)) - 1 = e
  generalize hk7 : e - 7 = k
  rw [show e - 6 = k + 1 from by omega, show e - 5 = k + 2 from by omega,
      show e - 4 = k + 3 from by omega, show e - 3 = k + 4 from by omega,
      show e - 2 = k + 5 from by omega, show e - 1 = k + 6 from by omega,
      show e = k + 7 from by omega]
  have hkP : k = (data ++ 0x80 :: List.replicate m 0).length := by
    simp
    omega
  rw [set_last8 _ _ _ _ _ _ _ _ _ _ hkP]
  rw [show 1 + (m + 8) - 9 = m from by omega]
  simp [List.append_assoc]

theorem pad512_layout (d : List Nat) :
    pad512 d = d ++ 0x80 :: (List.replicate (padVal d.length - 9) 0
      ++ Ref.be64 ((8 * d.length) % M64)) := by
  have h9 : 9 ≤ padVal d.length := by
    unfold padVal
    split <;> omega
  rw [pad512_eq_padChain, padChain_layout _ _ h9]

theorem padVal_sub_nine (n : Nat) : padVal n - 9 = Ref.KminZeros n := by
  unfold padVal Ref.KminZeros
  split <;> omega

theorem pad512_length (d : List Nat) : (pad512 d).length = d.length + padVal d.length := by
  have h9 : 9 ≤ padVal d.length := by
    unfold padVal
    split <;> omega
  rw [pad512_layout]
  simp [Ref.be64]
  omega

/-- Claim C2: `pad512` returns the input followed by `0x80`, the minimum
run of zero bytes, and the 8-byte big-endian bit length, padding to a
64-byte multiple, with a full extra block exactly when fewer than 9 bytes
of room remain in the last block; the total length `64*((n+72)/64)` gives
1, 1, 2, 2 blocks for inputs of length 0, 55, 56, 64. -/
theorem pad512_padding_spec (d : List Nat) :
    pad512 d = d ++ 0x80 :: (List.replicate (Ref.KminZeros d.length) 0
      ++ Ref.be64 ((8 * d.length) % M64))
    ∧ (d.length + 1 + Ref.KminZeros d.length + 8) % 64 = 0
    ∧ Ref.KminZeros d.length < 64
    ∧ (pad512 d).length % 64 = 0
    ∧ (pad512 d).length = 64 * (d.length / 64) + (if 55 < d.length % 64 then 128 else 64)
    ∧ (pad512 d).length = 64 * ((d.length + 72) / 64) := by
  have hlay := pad512_layout d
  rw [padVal_sub_nine] at hlay
  have hlen := pad512_length d
  have hpv : padVal d.length
      = if 64 - d.length % 64 < 9 then 64 - d.length % 64 + 64 else 64 - d.length % 64 := rfl
  refine ⟨hlay, by unfold Ref.KminZeros; omega, by unfold Ref.KminZeros; omega, ?_, ?_, ?_⟩
  · rw [hlen, hpv]
    split <;> omega
  · rw [hlen, hpv]
    split <;> split <;> omega
  · rw [hlen, hpv]
    split <;> omega

/-! ## Chunking bridge between the two SHA-256 codepaths -/

theorem foldl_congr_mem {α β : Type} (l : List β) (f g : α → β → α) (a : α)
    (h : ∀ acc x, x ∈ l → f acc x = g acc x) : l.foldl f a = l.foldl g a := by
  induction l generalizing a with
  | nil => rfl
  | cons x t ih =>
    simp only [List.foldl_cons]
    rw [h _ _ (by simp)]
    exact ih _ (fun acc y hy => h acc y (by simp [hy]))

theorem getD_map_range (n m d : Nat) (f : Nat → Nat) :
    ((List.range n).map f).getD m d = if m < n then f m else d := by
  rcases Nat.lt_or_ge m n with h | h
  · simp [List.getD_eq_getElem?_getD, List.getElem?_map, List.getElem?_range h, h]
  · have hn : (List.range n)[m]? = none := List.getElem?_eq_none (by simpa using h)
    simp [List.getD_eq_getElem?_getD, List.getElem?_map, hn, Nat.not_lt.2 h]

theorem chunk_getD (p : List Nat) (i m : Nat) (hm : m < 64) :
    ((p.drop (64*i)).take 64).getD m 0 = p.getD (64*i + m) 0 := by
  rw [List.getD_eq_getElem?_getD, List.getD_eq_getElem?_getD, List.getElem?_take,
    List.getElem?_drop]
  simp [hm]

theorem conv8to32_length (p : List Nat) : (conv8to32 p).length = p.length / 4 := by
  simp [conv8to32]

theorem loadW_chunk (p : List Nat) (i : Nat) (h64 : p.length % 64 = 0)
    (hi : i < p.length / 64) :
    (List.range 16).map (fun j => (conv8to32 p).getD (16*i + j) 0)
    = Sha2V2.loadW ((p.drop (64*i)).take 64) := by
  unfold Sha2V2.loadW conv8to32
  apply List.map_congr_left
  intro j hj
  have hj16 : j < 16 := List.mem_range.1 hj
  have hlt : 16*i + j < p.length / 4 := by omega
  rw [getD_map_range, if_pos hlt]
  rw [chunk_getD p i (4*j) (by omega), chunk_getD p i (4*j+1) (by omega),
      chunk_getD p i (4*j+2) (by omega), chunk_getD p i (4*j+3) (by omega)]
  rw [show 4*(16*i+j) = 64*i + 4*j from by ring]
  rw [show 64*i + 4*j + 1 = 64*i + (4*j+1) from by ring,
      show 64*i + 4*j + 2 = 64*i + (4*j+2) from by ring,
      show 64*i + 4*j + 3 = 64*i + (4*j+3) from by ring]

theorem fold_words_eq_blocks (p : List Nat) (h64 : p.length % 64 = 0) :
    (List.range ((conv8to32 p).length / 16)).foldl
      (fun h i => processChunk h ((List.range 16).map fun j => (conv8to32 p).getD (16*i + j) 0)) hInit
    = (List.range (p.length / 64)).foldl
      (fun x i => Sha2V2.Add512 x ((p.drop (64*i)).take 64)) hInit := by
  rw [conv8to32_length, show p.length / 4 / 16 = p.length / 64 from by omega]
  apply foldl_congr_mem
  intro acc i hi
  rw [loadW_chunk p i h64 (List.mem_range.1 hi)]
  rfl

theorem pad512_len_mod (d : List Nat) : (pad512 d).length % 64 = 0 := by
  have hlen := pad512_length d
  have hpv : padVal d.length
      = if 64 - d.length % 64 < 9 then 64 - d.length % 64 + 64 else 64 - d.length % 64 := rfl
  rw [hlen, hpv]
  split <;> omega

theorem pad512_eq_padSpec (d : List Nat) : pad512 d = Ref.padSpec d := by
  rw [pad512_layout, padVal_sub_nine]
  rfl

/-- Claim C4: the two independent SHA-256 codepaths compute the same
function — the word-chunked `Sha2_256` of src/sha2/sha2.go and the
byte-chunked `Sha2_256` built on `Hash256.Add512` in the unnamed sha2
source file agree on every input. -/
theorem sha2_dual_paths_agree (d : List Nat) :
    Sha2V1.Sha2_256 d = Sha2V2.Sha2_256 d := by
  show conv32to8 ((List.range ((conv8to32 (pad512 d)).length / 16)).foldl
      (fun h i => processChunk h
        ((List.range 16).map fun j => (conv8to32 (pad512 d)).getD (16*i + j) 0)) hInit)
    = conv32to8 ((List.range ((pad512 d).length / 64)).foldl
      (fun x i => Sha2V2.Add512 x (((pad512 d).drop (64*i)).take 64)) hInit)
  exact congrArg conv32to8 (fold_words_eq_blocks (pad512 d) (pad512_len_mod d))

/-- Each `Add512`-style block step agrees with the spec-side block step. -/
theorem blockSpec_eq_Add512 (x c : List Nat) : Ref.blockSpec x c = Sha2V2.Add512 x c := rfl

theorem sha2v1_eq_spec (d : List Nat) : Sha2V1.Sha2_256 d = Ref.sha256Spec d := by
  show conv32to8 ((List.range ((conv8to32 (pad512 d)).length / 16)).foldl
      (fun h i => processChunk h
        ((List.range 16).map fun j => (conv8to32 (pad512 d)).getD (16*i + j) 0)) hInit)
    = conv32to8 ((List.range ((Ref.padSpec d).length / 64)).foldl
      (fun h i => Ref.blockSpec h (((Ref.padSpec d).drop (64*i)).take 64)) hInit)
  rw [← pad512_eq_padSpec]
  refine congrArg conv32to8 ?_
  rw [fold_words_eq_blocks (pad512 d) (pad512_len_mod d)]
  apply foldl_congr_mem
  intro acc i _
  rw [blockSpec_eq_Add512]

theorem sha2Round_length (st : List Nat) (kw : Nat × Nat) :
    (sha2Round st kw).length = st.length := by
  unfold sha2Round
  split
  · simp_all
  · rfl

theorem sha2Compress_length (h w : List Nat) : (sha2Compress h w).length = h.length := by
  unfold sha2Compress
  generalize kConst.zip w = l
  induction l generalizing h with
  | nil => rfl
  | cons x t ih => rw [List.foldl_cons, ih, sha2Round_length]

theorem processChunk_length (h ws : List Nat) (h8 : h.length = 8) :
    (processChunk h ws).length = 8 := by
  unfold processChunk
  rw [List.length_zipWith, sha2Compress_length]
  omega

theorem conv32to8_length (src : List Nat) : (conv32to8 src).length = 4 * src.length := by
  unfold conv32to8
  induction src with
  | nil => rfl
  | cons x t ih =>
    simp only [List.foldr_cons, List.length_cons]
    rw [ih]
    ring

theorem chunkFold_length (l : List Nat) (h : List Nat) (h8 : h.length = 8)
    (f : List Nat → Nat → List Nat)
    (hf : ∀ acc i, acc.length = 8 → (f acc i).length = 8) :
    (l.foldl f h).length = 8 := by
  induction l generalizing h with
  | nil => exact h8
  | cons x t ih => exact ih _ (hf _ _ h8)

theorem sha2v1_length (d : List Nat) : (Sha2V1.Sha2_256 d).length = 32 := by
  show (conv32to8 ((List.range ((conv8to32 (pad512 d)).length / 16)).foldl
      (fun h i => processChunk h
        ((List.range 16).map fun j => (conv8to32 (pad512 d)).getD (16*i + j) 0)) hInit)).length = 32
  rw [conv32to8_length,
    chunkFold_length _ hInit (show hInit.length = 8 from rfl) _
      (fun acc i ha => processChunk_length _ _ ha)]

/-- Claim C1: `Sha2_256` of src/sha2/sha2.go returns a 32-byte digest
equal to the reference SHA-256 (modelled from the spec §4.1) of the same
input, and identical input always yields identical output. -/
theorem sha2_256_matches_reference (d : List Nat) :
    (Sha2V1.Sha2_256 d).length = 32
    ∧ Sha2V1.Sha2_256 d = Ref.sha256Spec d
    ∧ ∀ d2, d2 = d → Sha2V1.Sha2_256 d2 = Sha2V1.Sha2_256 d :=
  ⟨sha2v1_length d, sha2v1_eq_spec d, fun _ h => by rw [h]⟩

/-- Witness for C1 at concrete inputs. -/
theorem sha2_256_matches_reference_witness :
    Sha2V1.Sha2_256 [] = Ref.sha256Spec []
    ∧ Sha2V1.Sha2_256 [7] = Sha2V1.Sha2_256 [7] :=
  ⟨(sha2_256_matches_reference []).2.1, (sha2_256_matches_reference [7]).2.2 [7] rfl⟩

/-- Claim C6: `Sha2_256` of the empty byte sequence is the standard
empty-string SHA-256 digest `e3b0c442…b855`. -/
theorem sha2_256_empty_digest :
    Sha2V1.Sha2_256 [] = [0xe3, 0xb0, 0xc4, 0x42, 0x98, 0xfc, 0x1c, 0x14,
      0x9a, 0xfb, 0xf4, 0xc8, 0x99, 0x6f, 0xb9, 0x24, 0x27, 0xae, 0x41, 0xe4,
      0x64, 0x9b, 0x93, 0x4c, 0xa4, 0x95, 0x99, 0x1b, 0x78, 0x52, 0xb8, 0x55] := by
  set_option maxRecDepth 100000 in decide

/-- Claim C9: the hash core never mutates its input buffer — the only
write targets in the `Sha2_256` path are the padding cells of `pad512`,
all at indices at or beyond `d.length`, so the first `d.length` bytes of
the processed buffer are exactly `d`, and hashing the input as observed
after padding equals hashing the original input. -/
theorem sha2_input_preserved (d : List Nat) :
    (pad512 d).take d.length = d
    ∧ Sha2V1.Sha2_256 ((pad512 d).take d.length) = Sha2V1.Sha2_256 d := by
  have h : (pad512 d).take d.length = d := by
    rw [pad512_layout, List.take_append_of_le_length (Nat.le_refl _), List.take_length]
  exact ⟨h, by rw [h]⟩

/-! ## Decode stubs and hex parsing -/

/-- Claim C8: `Decode` applied to the empty string fails — it returns no
data and a non-nil error. -/
theorem decode_empty_fails :
    Base58.Decode [] = (none, some "no input") := rfl

/-- Claim C10: `Decode` applied to any non-empty string returns a nil
byte slice and a nil error — no data and no error, whatever the
characters are. -/
theorem decode_nonempty_silent (s : List Char) (h : s ≠ []) :
    Base58.Decode s = (none, none) := by
  unfold Base58.Decode
  rw [if_neg]
  simpa using h

/-- Witness for C10 on a concrete input (a character outside the
alphabet). -/
theorem decode_nonempty_silent_witness :
    (['0'] : List Char) ≠ [] ∧ Base58.Decode ['0'] = (none, none) :=
  ⟨by decide, decode_nonempty_silent ['0'] (by decide)⟩

theorem decodeHexStr_spec (n : Nat) : ∀ (s : List Char), s.length ≤ n →
    ((Sha2V2.decodeHexStr s).isSome
      ↔ s.length % 2 = 0 ∧ ∀ c ∈ s, (Sha2V2.hexDigitVal c).isSome)
    ∧ (∀ l, Sha2V2.decodeHexStr s = some l → l.length = s.length / 2) := by
  induction n with
  | zero =>
    intro s hs
    have : s = [] := List.eq_nil_of_length_eq_zero (by omega)
    subst this
    refine ⟨by simp [Sha2V2.decodeHexStr], ?_⟩
    intro l hl
    simp [Sha2V2.decodeHexStr] at hl
    simp [← hl]
  | succ n ih =>
    intro s hs
    match s with
    | [] =>
      refine ⟨by simp [Sha2V2.decodeHexStr], ?_⟩
      intro l hl
      simp [Sha2V2.decodeHexStr] at hl
      simp [← hl]
    | [c] =>
      refine ⟨by simp [Sha2V2.decodeHexStr], ?_⟩
      intro l hl
      simp [Sha2V2.decodeHexStr] at hl
    | c1 :: c2 :: rest =>
      obtain ⟨hiff, hlen⟩ := ih rest (by simp at hs ⊢; omega)
      rcases h1 : Sha2V2.hexDigitVal c1 with _ | v1
      · have hres : Sha2V2.decodeHexStr (c1 :: c2 :: rest) = none := by
          simp [Sha2V2.decodeHexStr, h1]
        refine ⟨?_, ?_⟩
        · rw [hres]
          simp only [Option.isSome_none, Bool.false_eq_true, false_iff]
          rintro ⟨-, hall⟩
          have hc := hall c1 (by simp)
          rw [h1] at hc
          simp at hc
        · intro l hl
          rw [hres] at hl
          exact absurd hl (by simp)
      rcases h2 : Sha2V2.hexDigitVal c2 with _ | v2
      · have hres : Sha2V2.decodeHexStr (c1 :: c2 :: rest) = none := by
          simp [Sha2V2.decodeHexStr, h1, h2]
        refine ⟨?_, ?_⟩
        · rw [hres]
          simp only [Option.isSome_none, Bool.false_eq_true, false_iff]
          rintro ⟨-, hall⟩
          have hc := hall c2 (by simp)
          rw [h2] at hc
          simp at hc
        · intro l hl
          rw [hres] at hl
          exact absurd hl (by simp)
      rcases h3 : Sha2V2.decodeHexStr rest with _ | l3
      · have hres : Sha2V2.decodeHexStr (c1 :: c2 :: rest) = none := by
          simp [Sha2V2.decodeHexStr, h1, h2, h3]
        rw [h3] at hiff
        refine ⟨?_, ?_⟩
        · rw [hres]
          simp only [Option.isSome_none, Bool.false_eq_true, false_iff]
          rintro ⟨hm, hall⟩
          have : rest.length % 2 = 0 ∧ ∀ c ∈ rest, (Sha2V2.hexDigitVal c).isSome := by
            refine ⟨by simp at hm; omega, fun c hc => hall c (by simp [hc])⟩
          have hfalse := hiff.mpr this
          simp at hfalse
        · intro l hl
          rw [hres] at hl
          exact absurd hl (by simp)
      · have hres : Sha2V2.decodeHexStr (c1 :: c2 :: rest)
            = some ((16 * v1 + v2) :: l3) := by
          simp [Sha2V2.decodeHexStr, h1, h2, h3]
        rw [h3] at hiff hlen
        obtain ⟨heven, hall⟩ := hiff.mp (by simp)
        refine ⟨?_, ?_⟩
        · rw [hres]
          simp only [Option.isSome_some, true_iff]
          refine ⟨by simp; omega, ?_⟩
          intro c hc
          rcases List.mem_cons.1 hc with rfl | hc
          · simp [h1]
          rcases List.mem_cons.1 hc with rfl | hc
          · simp [h2]
          exact hall c hc
        · intro l hl
          rw [hres] at hl
          have : l = (16 * v1 + v2) :: l3 := (by simpa using hl : _ = l).symm
          subst this
          have := hlen l3 rfl
          simp
          omega

/-- Claim C7: `FromString` succeeds exactly when the input is a string of
64 hexadecimal characters (case-insensitive), i.e. valid hex decoding to
exactly 32 bytes; any other length or non-hex character yields an error. -/
theorem fromString_hex_iff (s : List Char) :
    (Sha2V2.FromString s).isSome
      ↔ (s.length = 64 ∧ ∀ c ∈ s, (Sha2V2.hexDigitVal c).isSome) := by
  obtain ⟨hiff, hlen⟩ := decodeHexStr_spec s.length s (Nat.le_refl _)
  rcases hd : Sha2V2.decodeHexStr s with _ | x
  · rw [hd] at hiff
    have hres : Sha2V2.FromString s = none := by
      unfold Sha2V2.FromString
      rw [hd]
    rw [hres]
    simp only [Option.isSome_none, Bool.false_eq_true, false_iff] at hiff ⊢
    intro hcl
    exact hiff ⟨by omega, hcl.2⟩
  · rw [hd] at hiff
    have hx := hlen x hd
    obtain ⟨heven, hhex⟩ := hiff.mp (by simp)
    by_cases h32 : x.length = 32
    · have hres : Sha2V2.FromString s = some (conv8to32 x) := by
        unfold Sha2V2.FromString
        rw [hd]
        simp [h32]
      rw [hres]
      simp only [Option.isSome_some, true_iff]
      exact ⟨by omega, hhex⟩
    · have hres : Sha2V2.FromString s = none := by
        unfold Sha2V2.FromString
        rw [hd]
        simp [h32]
      rw [hres]
      simp only [Option.isSome_none, Bool.false_eq_true, false_iff]
      intro hcl
      omega

/-! ## Base-B value functions and canonical digits -/

namespace Ref

theorem polyVal_shift (B : Nat) (l : List Nat) (a : Nat) :
    l.foldl (fun a d => a * B + d) a = a * B ^ l.length + polyVal B l := by
  induction l generalizing a with
  | nil => simp [polyVal]
  | cons x t ih =>
    rw [List.foldl_cons, ih]
    have hx : polyVal B (x :: t) = x * B ^ t.length + polyVal B t := by
      unfold polyVal
      rw [List.foldl_cons]
      have := ih x
      simpa using this
    rw [hx]
    simp [List.length_cons, pow_succ]
    ring

theorem polyVal_cons (B x : Nat) (t : List Nat) :
    polyVal B (x :: t) = x * B ^ t.length + polyVal B t := by
  unfold polyVal
  rw [List.foldl_cons]
  have := polyVal_shift B t x
  simpa using this

theorem polyVal_append (B : Nat) (l1 l2 : List Nat) :
    polyVal B (l1 ++ l2) = polyVal B l1 * B ^ l2.length + polyVal B l2 := by
  unfold polyVal
  rw [List.foldl_append]
  exact polyVal_shift B l2 _

theorem polyVal_lt (B : Nat) (l : List Nat) (hB : 1 ≤ B) (h : ∀ x ∈ l, x < B) :
    polyVal B l < B ^ l.length := by
  induction l with
  | nil => simp [polyVal]
  | cons x t ih =>
    rw [polyVal_cons]
    have hx : x < B := h x (by simp)
    have ht : polyVal B t < B ^ t.length := ih (fun y hy => h y (by simp [hy]))
    have : x * B ^ t.length + polyVal B t < (x + 1) * B ^ t.length := by
      have := Nat.add_lt_add_left ht (x * B ^ t.length)
      calc x * B ^ t.length + polyVal B t
          < x * B ^ t.length + B ^ t.length := this
        _ = (x + 1) * B ^ t.length := by ring
    calc x * B ^ t.length + polyVal B t
        < (x + 1) * B ^ t.length := this
      _ ≤ B * B ^ t.length := Nat.mul_le_mul_right _ hx
      _ = B ^ (x :: t).length := by rw [List.length_cons, pow_succ]; ring

theorem polyVal_replicate_zero (B k : Nat) : polyVal B (List.replicate k 0) = 0 := by
  induction k with
  | zero => rfl
  | succ k ih => rw [List.replicate_succ, polyVal_cons, ih]; ring

theorem polyVal_init_le (B : Nat) (hB : 1 ≤ B) (l : List Nat) (a : Nat) :
    a ≤ l.foldl (fun a d => a * B + d) a := by
  induction l generalizing a with
  | nil => exact Nat.le_refl a
  | cons x t ih =>
    rw [List.foldl_cons]
    calc a = a * 1 := by ring
      _ ≤ a * B + x := by
          have := Nat.mul_le_mul_left a hB
          omega
      _ ≤ _ := ih _

theorem polyVal_natToDigits58 (n : Nat) : polyVal 58 (natToDigits58 n) = n := by
  induction n using Nat.strong_induction_on with
  | _ n ih =>
    rw [natToDigits58]
    split
    · simp [polyVal]
      omega
    · rename_i hn
      rw [polyVal_append]
      have hd : polyVal 58 [n % 58] = n % 58 := by simp [polyVal]
      rw [hd, ih (n / 58) (Nat.div_lt_self (Nat.pos_of_ne_zero hn) (by norm_num))]
      simp
      omega

theorem natToDigits58_lt (n : Nat) : ∀ x ∈ natToDigits58 n, x < 58 := by
  induction n using Nat.strong_induction_on with
  | _ n ih =>
    rw [natToDigits58]
    split
    · simp
    · rename_i hn
      intro x hx
      rcases List.mem_append.1 hx with hx | hx
      · exact ih (n / 58) (Nat.div_lt_self (Nat.pos_of_ne_zero hn) (by norm_num)) x hx
      · have : x = n % 58 := by simpa using hx
        subst this
        exact Nat.mod_lt _ (by norm_num)

theorem natToDigits58_length (n : Nat) : ∀ k, n < 58 ^ k → (natToDigits58 n).length ≤ k := by
  induction n using Nat.strong_induction_on with
  | _ n ih =>
    intro k hk
    rw [natToDigits58]
    split
    · simp
    · rename_i hn
      match k with
      | 0 =>
        simp at hk
        omega
      | k+1 =>
        have hdiv : n / 58 < 58 ^ k := by
          rw [Nat.div_lt_iff_lt_mul (by norm_num)]
          calc n < 58 ^ (k+1) := hk
            _ = 58 ^ k * 58 := by rw [pow_succ]
        have := ih (n / 58) (Nat.div_lt_self (Nat.pos_of_ne_zero hn) (by norm_num)) k hdiv
        simp [List.length_append]
        omega

theorem natToDigits58_head (n : Nat) (hn : n ≠ 0) :
    ∃ h t, natToDigits58 n = h :: t ∧ h ≠ 0 := by
  induction n using Nat.strong_induction_on with
  | _ n ih =>
    rw [natToDigits58, dif_neg hn]
    by_cases h58 : n / 58 = 0
    · have hsmall : n < 58 := by
        rcases Nat.lt_or_ge n 58 with h | h
        · exact h
        · exact absurd h58 (by
            have : 1 ≤ n / 58 := (Nat.le_div_iff_mul_le (by norm_num)).2 (by omega)
            omega)
      have hdig : natToDigits58 (n / 58) = [] := by
        rw [natToDigits58, dif_pos h58]
      rw [hdig]
      refine ⟨n % 58, [], by simp, ?_⟩
      rw [Nat.mod_eq_of_lt hsmall]
      exact hn
    · obtain ⟨h, t, heq, hne⟩ := ih (n / 58) (Nat.div_lt_self (Nat.pos_of_ne_zero hn) (by norm_num)) h58
      rw [heq]
      exact ⟨h, t ++ [n % 58], by simp, hne⟩

theorem pow58_137 : 2 ^ 800 ≤ 58 ^ 137 := by norm_num

theorem size_bound (m : Nat) : 256 ^ m < 58 ^ (m * 137 / 100 + 1) := by
  have key : (256 ^ m) ^ 100 < (58 ^ (m * 137 / 100 + 1)) ^ 100 := by
    rw [← pow_mul, ← pow_mul]
    have h1 : (256 : Nat) ^ (m * 100) = (2 ^ 800) ^ m := by
      rw [show (256 : Nat) = 2 ^ 8 from rfl, ← pow_mul, ← pow_mul]
      ring_nf
    have h2 : m * 137 + 1 ≤ (m * 137 / 100 + 1) * 100 := by omega
    calc (256 : Nat) ^ (m * 100) = (2 ^ 800) ^ m := h1
      _ ≤ (58 ^ 137) ^ m := Nat.pow_le_pow_left pow58_137 m
      _ = 58 ^ (137 * m) := by rw [← pow_mul]
      _ < 58 ^ (m * 137 + 1) := Nat.pow_lt_pow_right (by norm_num) (by omega)
      _ ≤ 58 ^ ((m * 137 / 100 + 1) * 100) := Nat.pow_le_pow_right (by norm_num) h2
  exact (Nat.pow_lt_pow_iff_left (by norm_num)).1 key

theorem beNat_lt (bytes : List Nat) (hb : ∀ x ∈ bytes, x < 256) :
    beNat bytes < 58 ^ (bytes.length * 137 / 100 + 1) :=
  lt_trans (polyVal_lt 256 bytes (by norm_num) hb) (size_bound bytes.length)

end Ref

/-! ## Correctness of the base58 carry-propagation loop -/

theorem nChars_eq : Base58.nChars = 58 := rfl

theorem getD_set_ne (l : List Nat) (n i v : Nat) (h : n ≠ i) :
    (l.set n v).getD i 0 = l.getD i 0 := by
  rw [List.getD_eq_getElem?_getD, List.getD_eq_getElem?_getD, List.getElem?_set, if_neg h]

theorem getD_eq_getElem (l : List Nat) (i : Nat) (h : i < l.length) : l.getD i 0 = l[i] := by
  rw [List.getD_eq_getElem?_getD, List.getElem?_eq_getElem h]
  rfl

theorem take_set_ge (l : List Nat) (n m v : Nat) (h : m ≤ n) :
    (l.set n v).take m = l.take m := by
  apply List.ext_getElem?
  intro i
  rw [List.getElem?_take, List.getElem?_take]
  split
  · rw [List.getElem?_set, if_neg (by omega)]
  · rfl

theorem drop_set_cons (l : List Nat) (n v : Nat) (h : n < l.length) :
    (l.set n v).drop n = v :: l.drop (n+1) := by
  apply List.ext_getElem?
  intro i
  rw [List.getElem?_drop]
  match i with
  | 0 =>
    rw [List.getElem?_set]
    simp [h]
  | i+1 =>
    rw [List.getElem?_set, if_neg (by omega)]
    rw [List.getElem?_cons_succ, List.getElem?_drop]
    congr 1
    omega

theorem polyVal_eq_zero (l : List Nat) (h : ∀ x ∈ l, x = 0) : Ref.polyVal 58 l = 0 := by
  rw [List.eq_replicate_of_mem h, Ref.polyVal_replicate_zero]

theorem encLoopInner_spec : ∀ (j : Nat) (buf : List Nat) (high carry : Nat),
    j < buf.length →
    (∀ i, i ≤ j → i ≤ high → buf.getD i 0 = 0) →
    (∀ x ∈ buf, x < 58) →
    (256 * Ref.polyVal 58 (buf.take (j+1)) + carry) * 58 ^ (buf.length - 1 - j)
        + Ref.polyVal 58 (buf.drop (j+1)) < 58 ^ buf.length →
    (Base58.encLoopInner buf high carry j).1.length = buf.length
    ∧ (∀ x ∈ (Base58.encLoopInner buf high carry j).1, x < 58)
    ∧ Ref.polyVal 58 (Base58.encLoopInner buf high carry j).1
        = (256 * Ref.polyVal 58 (buf.take (j+1)) + carry) * 58 ^ (buf.length - 1 - j)
          + Ref.polyVal 58 (buf.drop (j+1))
    ∧ ((∀ i, i ≤ (Base58.encLoopInner buf high carry j).2
          → (Base58.encLoopInner buf high carry j).1.getD i 0 = 0)
        ∨ 58 ^ (buf.length - 1) ≤ Ref.polyVal 58 (Base58.encLoopInner buf high carry j).1) := by
  intro j
  induction j with
  | zero =>
    intro buf high carry hL hz hd hT
    obtain ⟨b0, t, rfl⟩ : ∃ b0 t, buf = b0 :: t := by
      cases buf with
      | nil => simp at hL
      | cons b0 t => exact ⟨b0, t, rfl⟩
    have htk : (b0 :: t).take (0+1) = [b0] := rfl
    have hdr : (b0 :: t).drop (0+1) = t := rfl
    have he : (b0 :: t).length - 1 - 0 = t.length := by simp
    have hpb : Ref.polyVal 58 [b0] = b0 := by simp [Ref.polyVal]
    rw [htk, hdr, he, hpb] at hT ⊢
    by_cases hcond : ((0:Nat) > high ∨ carry ≠ 0)
    · have hstep : Base58.encLoopInner (b0::t) high carry 0
          = (((carry + b0 * 256) % 58) :: t, 0) := by
        rw [Base58.encLoopInner, if_pos hcond]
        rfl
      rw [hstep]
      have hcarry : carry ≠ 0 := by
        rcases hcond with h | h
        · omega
        · exact h
      have hc58 : carry + b0 * 256 < 58 := by
        by_contra hge
        push_neg at hge
        have hbig : 58 ^ (b0::t).length ≤ (256 * b0 + carry) * 58 ^ t.length
            + Ref.polyVal 58 t := by
          calc 58 ^ (b0::t).length = 58 * 58 ^ t.length := by
                rw [List.length_cons, pow_succ]
                ring
            _ ≤ (carry + b0 * 256) * 58 ^ t.length := Nat.mul_le_mul_right _ hge
            _ = (256 * b0 + carry) * 58 ^ t.length := by ring
            _ ≤ _ := Nat.le_add_right _ _
        omega
      have hmod : (carry + b0 * 256) % 58 = carry + b0 * 256 := Nat.mod_eq_of_lt hc58
      refine ⟨by simp, ?_, ?_, Or.inr ?_⟩
      · intro x hx
        rcases List.mem_cons.1 hx with rfl | hx
        · omega
        · exact hd x (by simp [hx])
      · rw [Ref.polyVal_cons, hmod]
        ring
      · rw [Ref.polyVal_cons, hmod]
        have hlen1 : (b0 :: t).length - 1 = t.length := by simp
        rw [hlen1]
        calc 58 ^ t.length = 1 * 58 ^ t.length := by ring
          _ ≤ (carry + b0 * 256) * 58 ^ t.length := Nat.mul_le_mul_right _ (by omega)
          _ ≤ _ := Nat.le_add_right _ _
    · have hncond : ¬((0:Nat) > high ∨ carry ≠ 0) := hcond
      push_neg at hcond
      obtain ⟨-, hcar⟩ := hcond
      have hstep : Base58.encLoopInner (b0::t) high carry 0 = (b0 :: t, 0) := by
        rw [Base58.encLoopInner, if_neg hncond]
      rw [hstep]
      have hb0 : b0 = 0 := by
        have := hz 0 (Nat.le_refl 0) (Nat.zero_le high)
        simpa using this
      refine ⟨rfl, hd, ?_, Or.inl ?_⟩
      · rw [Ref.polyVal_cons, hb0, hcar]
        try ring
      · intro i hi
        have hi0 : i = 0 := by omega
        subst hi0
        simpa using hb0
  | succ j ih =>
    intro buf high carry hL hz hd hT
    by_cases hcond : (j+1 > high ∨ carry ≠ 0)
    · rw [show j + 1 + 1 = j + 2 from rfl] at hT ⊢
      set b := buf.getD (j+1) 0 with hb
      set c := carry + b * 256 with hc
      have hstep : Base58.encLoopInner buf high carry (j+1)
          = Base58.encLoopInner (buf.set (j+1) (c % 58)) high (c / 58) j := by
        rw [Base58.encLoopInner, if_pos hcond]
        rfl
      set buf1 := buf.set (j+1) (c % 58) with hbuf1
      have hL1 : buf1.length = buf.length := List.length_set buf _ _
      have hjL : j < buf1.length := by omega
      have hz1 : ∀ i, i ≤ j → i ≤ high → buf1.getD i 0 = 0 := by
        intro i hij hih
        rw [hbuf1, getD_set_ne buf (j+1) i _ (by omega)]
        exact hz i (by omega) hih
      have hd1 : ∀ x ∈ buf1, x < 58 := by
        intro x hx
        rw [hbuf1] at hx
        rcases List.mem_or_eq_of_mem_set hx with hx | rfl
        · exact hd x hx
        · exact Nat.mod_lt _ (by norm_num)
      have htake : buf1.take (j+1) = buf.take (j+1) :=
        take_set_ge buf (j+1) (j+1) _ (Nat.le_refl _)
      have hdrop : buf1.drop (j+1) = (c % 58) :: buf.drop (j+2) :=
        drop_set_cons buf (j+1) _ hL
      have htake2 : buf.take (j+2) = buf.take (j+1) ++ [b] := by
        rw [List.take_succ, List.getElem?_eq_getElem hL]
        rw [hb, getD_eq_getElem buf (j+1) hL]
        rfl
      set A := Ref.polyVal 58 (buf.take (j+1)) with hA
      set R := Ref.polyVal 58 (buf.drop (j+2)) with hR
      set E := buf.length - 1 - (j+1) with hE
      have hlenR : (buf.drop (j+2)).length = E := by
        rw [List.length_drop]
        omega
      have h1 : Ref.polyVal 58 (buf.take (j+2)) = A * 58 + b := by
        rw [htake2, Ref.polyVal_append, hA]
        simp [Ref.polyVal]
      have hexp : buf.length - 1 - j = E + 1 := by omega
      have hT1 : (256 * Ref.polyVal 58 (buf1.take (j+1)) + c / 58) * 58 ^ (buf1.length - 1 - j)
            + Ref.polyVal 58 (buf1.drop (j+1))
          = (256 * A + c / 58) * 58 ^ (E + 1) + ((c % 58) * 58 ^ E + R) := by
        rw [htake, hdrop, hL1, hexp, Ref.polyVal_cons, hlenR]
      have halg : (256 * A + c / 58) * 58 ^ (E + 1) + ((c % 58) * 58 ^ E + R)
          = (256 * (A * 58 + b) + carry) * 58 ^ E + R := by
        have hdm : 58 * (c / 58) + c % 58 = c := Nat.div_add_mod c 58
        have hco : (256 * A + c / 58) * 58 + c % 58 = 256 * (A * 58 + b) + carry := by omega
        calc (256 * A + c / 58) * 58 ^ (E + 1) + ((c % 58) * 58 ^ E + R)
            = ((256 * A + c / 58) * 58 + c % 58) * 58 ^ E + R := by
              rw [pow_succ]
              ring
          _ = (256 * (A * 58 + b) + carry) * 58 ^ E + R := by rw [hco]
      rw [h1] at hT
      obtain ⟨ihlen, ihd, ihpv, ihzero⟩ := ih buf1 high (c / 58) hjL hz1 hd1 (by
        rw [hT1, halg, hL1]
        exact hT)
      rw [hstep]
      refine ⟨by rw [ihlen, hL1], ihd, ?_, ?_⟩
      · rw [ihpv, hT1, halg, h1]
      · rcases ihzero with hzl | hzr
        · exact Or.inl hzl
        · right
          rw [hL1] at hzr
          exact hzr
    · have hncond : ¬(j+1 > high ∨ carry ≠ 0) := hcond
      push_neg at hcond
      obtain ⟨hhigh, hcar⟩ := hcond
      have hstep : Base58.encLoopInner buf high carry (j+1) = (buf, j+1) := by
        rw [Base58.encLoopInner, if_neg hncond]
      rw [hstep]
      have hzero_take : ∀ x ∈ buf.take (j+2), x = 0 := by
        intro x hx
        obtain ⟨i, hi, hix⟩ := List.mem_iff_getElem.1 hx
        rw [List.length_take] at hi
        have hi2 : i < j + 2 := by omega
        have hibuf : i < buf.length := by omega
        rw [List.getElem_take] at hix
        have hzi := hz i (by omega) (by omega)
        rw [getD_eq_getElem buf i hibuf] at hzi
        omega
      have hpvtake : Ref.polyVal 58 (buf.take (j+2)) = 0 := polyVal_eq_zero _ hzero_take
      have hpvbuf : Ref.polyVal 58 buf = Ref.polyVal 58 (buf.drop (j+2)) := by
        conv_lhs => rw [← List.take_append_drop (j+2) buf]
        rw [Ref.polyVal_append, hpvtake]
        simp
      refine ⟨rfl, hd, ?_, Or.inl ?_⟩
      · rw [hpvtake, hcar, hpvbuf]
        ring
      · intro i hi
        exact hz i hi (by omega)

theorem polyVal_nil58 : Ref.polyVal 58 ([] : List Nat) = 0 := rfl

theorem encLoopInner_length : ∀ (j : Nat) (buf : List Nat) (high carry : Nat),
    (Base58.encLoopInner buf high carry j).1.length = buf.length := by
  intro j
  induction j with
  | zero =>
    intro buf high carry
    rw [Base58.encLoopInner]
    split
    · simp
    · rfl
  | succ j ih =>
    intro buf high carry
    rw [Base58.encLoopInner]
    split
    · show (Base58.encLoopInner
          (buf.set (j+1) ((carry + buf.getD (j+1) 0 * 256) % Base58.nChars)) high
          ((carry + buf.getD (j+1) 0 * 256) / Base58.nChars) j).1.length = buf.length
      rw [ih, List.length_set]
    · rfl

theorem encodeFold_spec : ∀ (bs : List Nat) (buf : List Nat) (high : Nat),
    buf ≠ [] →
    (∀ i, i ≤ high → buf.getD i 0 = 0) →
    (∀ x ∈ buf, x < 58) →
    bs.foldl (fun a b => a * 256 + b) (Ref.polyVal 58 buf) < 58 ^ buf.length →
    ((bs.foldl (fun st b => Base58.encLoopInner st.1 st.2 b (st.1.length - 1))
        (buf, high)).1.length = buf.length
    ∧ (∀ x ∈ (bs.foldl (fun st b => Base58.encLoopInner st.1 st.2 b (st.1.length - 1))
        (buf, high)).1, x < 58)
    ∧ Ref.polyVal 58 (bs.foldl (fun st b => Base58.encLoopInner st.1 st.2 b (st.1.length - 1))
        (buf, high)).1
      = bs.foldl (fun a b => a * 256 + b) (Ref.polyVal 58 buf)) := by
  intro bs
  induction bs with
  | nil =>
    intro buf high hne hz hd hbound
    exact ⟨rfl, hd, rfl⟩
  | cons b rest ih =>
    intro buf high hne hz hd hbound
    have hpos : 0 < buf.length := List.length_pos.2 hne
    rw [List.foldl_cons] at hbound
    set j := buf.length - 1 with hj
    have hjL : j < buf.length := by omega
    have hj1 : j + 1 = buf.length := by omega
    have htake : buf.take (j+1) = buf := by rw [hj1, List.take_length]
    have hdropn : buf.drop (j+1) = ([] : List Nat) := by rw [hj1, List.drop_length]
    have hexp : buf.length - 1 - j = 0 := by omega
    have hT : (256 * Ref.polyVal 58 (buf.take (j+1)) + b) * 58 ^ (buf.length - 1 - j)
        + Ref.polyVal 58 (buf.drop (j+1)) < 58 ^ buf.length := by
      rw [htake, hdropn, hexp, pow_zero, mul_one, polyVal_nil58, add_zero]
      have hle := Ref.polyVal_init_le 256 (by norm_num) rest (Ref.polyVal 58 buf * 256 + b)
      omega
    obtain ⟨ilen, id58, ipv, izero⟩ :=
      encLoopInner_spec j buf high b hjL (fun i _ hih => hz i hih) hd hT
    rw [htake, hdropn, hexp, pow_zero, mul_one, polyVal_nil58, add_zero] at ipv
    have hgoalstep : List.foldl (fun st b => Base58.encLoopInner st.1 st.2 b (st.1.length - 1))
          (buf, high) (b :: rest)
        = List.foldl (fun st b => Base58.encLoopInner st.1 st.2 b (st.1.length - 1))
          (Base58.encLoopInner buf high b j) rest := by
      rw [List.foldl_cons]
    rw [hgoalstep]
    set r := Base58.encLoopInner buf high b j with hr
    rcases izero with hzl | hzr
    · have hrne : r.1 ≠ [] := List.length_pos.1 (by rw [ilen]; exact hpos)
      have hrec := ih r.1 r.2 hrne hzl id58 (by
        rw [ilen, ipv, show 256 * Ref.polyVal 58 buf + b
            = Ref.polyVal 58 buf * 256 + b from by ring]
        exact hbound)
      obtain ⟨hl2, hd2, hpv2⟩ := hrec
      refine ⟨hl2.trans ilen, hd2, ?_⟩
      rw [List.foldl_cons]
      have hv : Ref.polyVal 58 r.1 = Ref.polyVal 58 buf * 256 + b := by
        rw [ipv]
        ring
      rw [← hv]
      exact hpv2
    · rcases rest with _ | ⟨b2, rest2⟩
      · refine ⟨?_, ?_, ?_⟩
        · simpa using ilen
        · simpa using id58
        · rw [List.foldl_cons]
          simp only [List.foldl_nil]
          rw [ipv]
          ring
      · exfalso
        rw [List.foldl_cons] at hbound
        have hle := Ref.polyVal_init_le 256 (by norm_num) rest2
          ((Ref.polyVal 58 buf * 256 + b) * 256 + b2)
        have hA : Ref.polyVal 58 r.1 = Ref.polyVal 58 buf * 256 + b := by
          rw [ipv]
          ring
        have hpow : 58 ^ buf.length = 58 * 58 ^ (buf.length - 1) := by
          rw [← pow_succ']
          congr 1
          omega
        omega

theorem polyVal_inj : ∀ (l1 l2 : List Nat), l1.length = l2.length →
    (∀ x ∈ l1, x < 58) → (∀ x ∈ l2, x < 58) →
    Ref.polyVal 58 l1 = Ref.polyVal 58 l2 → l1 = l2 := by
  intro l1
  induction l1 with
  | nil =>
    intro l2 hlen _ _ _
    simp only [List.length_nil] at hlen
    exact (List.eq_nil_of_length_eq_zero hlen.symm).symm
  | cons x t ih =>
    intro l2 hlen hd1 hd2 hpv
    rcases l2 with _ | ⟨y, t2⟩
    · simp at hlen
    · have hlt : t.length = t2.length := by simpa using hlen
      rw [Ref.polyVal_cons, Ref.polyVal_cons, hlt] at hpv
      set P := 58 ^ t2.length with hP
      have hPpos : 0 < P := Nat.pos_pow_of_pos _ (by norm_num)
      have hpt : Ref.polyVal 58 t < P := by
        rw [hP, ← hlt]
        exact Ref.polyVal_lt 58 t (by norm_num) (fun a ha => hd1 a (by simp [ha]))
      have hpt2 : Ref.polyVal 58 t2 < P :=
        Ref.polyVal_lt 58 t2 (by norm_num) (fun a ha => hd2 a (by simp [ha]))
      have hx : (Ref.polyVal 58 t + P * x) / P = x := by
        rw [Nat.add_mul_div_left _ _ hPpos, Nat.div_eq_of_lt hpt]
        omega
      have hy : (Ref.polyVal 58 t2 + P * y) / P = y := by
        rw [Nat.add_mul_div_left _ _ hPpos, Nat.div_eq_of_lt hpt2]
        omega
      have hsum : Ref.polyVal 58 t + P * x = Ref.polyVal 58 t2 + P * y := by
        calc Ref.polyVal 58 t + P * x = x * P + Ref.polyVal 58 t := by ring
          _ = y * P + Ref.polyVal 58 t2 := hpv
          _ = Ref.polyVal 58 t2 + P * y := by ring
      have hxy : x = y := by rw [← hx, ← hy, hsum]
      subst hxy
      have htt : Ref.polyVal 58 t = Ref.polyVal 58 t2 := by
        have hpv2 : P * x + Ref.polyVal 58 t = P * x + Ref.polyVal 58 t2 := by
          calc P * x + Ref.polyVal 58 t = x * P + Ref.polyVal 58 t := by ring
            _ = x * P + Ref.polyVal 58 t2 := hpv
            _ = P * x + Ref.polyVal 58 t2 := by ring
        exact Nat.add_left_cancel hpv2
      rw [ih t2 hlt (fun a ha => hd1 a (by simp [ha])) (fun a ha => hd2 a (by simp [ha])) htt]

theorem dropWhile_replicate_append (k : Nat) (D : List Nat)
    (hD : D = [] ∨ ∃ h t, D = h :: t ∧ h ≠ 0) :
    (List.replicate k 0 ++ D).dropWhile (· == 0) = D := by
  induction k with
  | zero =>
    simp only [List.replicate_zero, List.nil_append]
    rcases hD with rfl | ⟨h, t, rfl, hne⟩
    · rfl
    · rw [List.dropWhile_cons]
      simp [hne]
  | succ k ih =>
    rw [List.replicate_succ, List.cons_append, List.dropWhile_cons]
    simpa using ih

theorem countZeroes_le (d : List Nat) : Base58.countZeroes d ≤ d.length := by
  induction d with
  | nil => simp [Base58.countZeroes]
  | cons b t ih =>
    rw [Base58.countZeroes]
    split <;> simp <;> omega

theorem getD_replicate_zero (L i : Nat) : (List.replicate L (0:Nat)).getD i 0 = 0 := by
  rw [List.getD_eq_getElem?_getD, List.getElem?_replicate]
  split <;> rfl

theorem encodeState_spec (d : List Nat) (hb : ∀ x ∈ d, x < 256) :
    (Base58.encodeState d).1.length = (d.length - Base58.countZeroes d) * 137 / 100 + 1
    ∧ (∀ x ∈ (Base58.encodeState d).1, x < 58)
    ∧ Ref.polyVal 58 (Base58.encodeState d).1
        = Ref.beNat (d.drop (Base58.countZeroes d)) := by
  set z := Base58.countZeroes d with hzdef
  set L := (d.length - z) * 137 / 100 + 1 with hLdef
  have hstate : Base58.encodeState d
      = (d.drop z).foldl (fun st b => Base58.encLoopInner st.1 st.2 b (st.1.length - 1))
        (List.replicate L 0, L - 1) := rfl
  have hLrep : (List.replicate L (0:Nat)).length = L := List.length_replicate L 0
  have hbound : (d.drop z).foldl (fun a b => a * 256 + b)
      (Ref.polyVal 58 (List.replicate L 0)) < 58 ^ (List.replicate L (0:Nat)).length := by
    rw [Ref.polyVal_replicate_zero, hLrep]
    have hlen : (d.drop z).length = d.length - z := List.length_drop z d
    have := Ref.beNat_lt (d.drop z) (fun x hx => hb x (List.mem_of_mem_drop hx))
    rw [hlen] at this
    exact this
  obtain ⟨hl, hd58, hpv⟩ := encodeFold_spec (d.drop z) (List.replicate L 0) (L - 1)
    (by simp [hLdef]) (fun i _ => getD_replicate_zero L i)
    (fun x hx => by rw [List.eq_of_mem_replicate hx]; norm_num)
    hbound
  rw [hstate]
  refine ⟨by rw [hl, hLrep], hd58, ?_⟩
  rw [hpv, Ref.polyVal_replicate_zero]
  rfl

theorem encodeState_canonical (d : List Nat) (hb : ∀ x ∈ d, x < 256) :
    (Base58.encodeState d).1.dropWhile (· == 0)
      = Ref.natToDigits58 (Ref.beNat (d.drop (Base58.countZeroes d))) := by
  set z := Base58.countZeroes d with hz
  set V := Ref.beNat (d.drop z) with hV
  set L := (d.length - z) * 137 / 100 + 1 with hL
  obtain ⟨hlen, hd58, hpv⟩ := encodeState_spec d hb
  set D := Ref.natToDigits58 V with hD
  have hVlt : V < 58 ^ L := by
    rw [hV, hL]
    have hdl : (d.drop z).length = d.length - z := List.length_drop z d
    have hbig := Ref.beNat_lt (d.drop z) (fun x hx => hb x (List.mem_of_mem_drop hx))
    rw [hdl] at hbig
    exact hbig
  have hDlen : D.length ≤ L := Ref.natToDigits58_length V L hVlt
  have hcan : (Base58.encodeState d).1 = List.replicate (L - D.length) 0 ++ D := by
    apply polyVal_inj
    · rw [hlen]
      simp
      omega
    · exact hd58
    · intro x hx
      rcases List.mem_append.1 hx with hx | hx
      · rw [List.eq_of_mem_replicate hx]
        norm_num
      · exact Ref.natToDigits58_lt V x hx
    · rw [hpv, Ref.polyVal_append, Ref.polyVal_replicate_zero, Ref.polyVal_natToDigits58]
      simp
  rw [hcan]
  apply dropWhile_replicate_append
  by_cases hV0 : V = 0
  · left
    rw [hD, hV0, Ref.natToDigits58]
    simp
  · right
    exact Ref.natToDigits58_head V hV0

theorem encode_eq_spec (d : List Nat) (hb : ∀ x ∈ d, x < 256) :
    Base58.Encode d = Ref.encodeSpec d := by
  show String.mk (List.replicate (Base58.countZeroes d) '1'
      ++ ((Base58.encodeState d).1.dropWhile (· == 0)).map fun v => Base58.chars.getD v ' ')
    = String.mk (List.replicate (Base58.countZeroes d) '1'
      ++ (Ref.natToDigits58 (Ref.beNat (d.drop (Base58.countZeroes d)))).map
          fun v => Base58.chars.getD v ' ')
  rw [encodeState_canonical d hb]

theorem countZeroes_replicate (k : Nat) : Base58.countZeroes (List.replicate k 0) = k := by
  induction k with
  | zero => rfl
  | succ k ih =>
    rw [List.replicate_succ, Base58.countZeroes]
    simp [ih]

theorem natToDigits58_zero : Ref.natToDigits58 0 = [] := by
  rw [Ref.natToDigits58]
  simp

theorem encode_replicate_zero (k : Nat) :
    Base58.Encode (List.replicate k 0) = String.mk (List.replicate k '1') := by
  rw [encode_eq_spec _ (fun x hx => by rw [List.eq_of_mem_replicate hx]; norm_num)]
  have hz := countZeroes_replicate k
  show String.mk (List.replicate (Base58.countZeroes (List.replicate k 0)) '1'
      ++ (Ref.natToDigits58 (Ref.beNat ((List.replicate k 0).drop
          (Base58.countZeroes (List.replicate k 0))))).map fun v => Base58.chars.getD v ' ')
    = String.mk (List.replicate k '1')
  rw [hz]
  have hdrop : List.drop k (List.replicate k (0:Nat)) = [] := by simp
  rw [hdrop, show Ref.beNat ([] : List Nat) = 0 from rfl, natToDigits58_zero]
  simp

/-- Claim C3: `Encode` emits one `'1'` per leading zero byte followed by
the canonical base-58 digits (most significant first, no leading zero
digit, mapped through the alphabet) of the remaining bytes read as a
big-endian integer; the empty input encodes to `""`, an all-zero input to
a run of `'1'`, and `[0x00, 0x01]` to `"12"`. -/
theorem base58_encode_correct :
    (∀ d : List Nat, (∀ b ∈ d, b < 256) → Base58.Encode d = Ref.encodeSpec d)
    ∧ (∀ n, Ref.polyVal 58 (Ref.natToDigits58 n) = n)
    ∧ (∀ n, (Ref.natToDigits58 n).take 1 ≠ [0])
    ∧ Base58.Encode [] = ""
    ∧ (∀ k, Base58.Encode (List.replicate k 0) = String.mk (List.replicate k '1'))
    ∧ Base58.Encode [0, 1] = "12" := by
  refine ⟨encode_eq_spec, Ref.polyVal_natToDigits58, ?_, by decide,
    encode_replicate_zero, by decide⟩
  intro n
  by_cases hn : n = 0
  · rw [hn, natToDigits58_zero]
    simp
  · obtain ⟨h, t, heq, hne⟩ := Ref.natToDigits58_head n hn
    rw [heq]
    simp [hne]

/-- Witness for C3 at the concrete input `[0x00, 0x01]`. -/
theorem base58_encode_correct_witness :
    (∀ b ∈ ([0, 1] : List Nat), b < 256)
    ∧ Base58.Encode [0, 1] = Ref.encodeSpec [0, 1] :=
  ⟨by decide, base58_encode_correct.1 [0, 1] (by decide)⟩

/-! ## Bounds safety of the encode loops -/

theorem encLoopInnerChk_eq : ∀ (j : Nat) (buf : List Nat) (high carry : Nat),
    j < buf.length →
    Base58.encLoopInnerChk buf high carry j = some (Base58.encLoopInner buf high carry j) := by
  intro j
  induction j with
  | zero =>
    intro buf high carry hL
    rw [Base58.encLoopInnerChk, Base58.encLoopInner]
    split
    · rw [List.getElem?_eq_getElem hL, getD_eq_getElem buf 0 hL]
    · rfl
  | succ j ih =>
    intro buf high carry hL
    rw [Base58.encLoopInnerChk, Base58.encLoopInner]
    split
    · rw [List.getElem?_eq_getElem hL, getD_eq_getElem buf (j+1) hL]
      show Base58.encLoopInnerChk
          (buf.set (j+1) ((carry + buf[j+1] * 256) % Base58.nChars)) high
          ((carry + buf[j+1] * 256) / Base58.nChars) j
        = some (Base58.encLoopInner
          (buf.set (j+1) ((carry + buf[j+1] * 256) % Base58.nChars)) high
          ((carry + buf[j+1] * 256) / Base58.nChars) j)
      exact ih _ high _ (by rw [List.length_set]; omega)
    · rfl

theorem encodeFoldChk_eq : ∀ (bs : List Nat) (buf : List Nat) (high : Nat), buf ≠ [] →
    bs.foldl (fun st b => match st with
        | none => none
        | some st => Base58.encLoopInnerChk st.1 st.2 b (st.1.length - 1)) (some (buf, high))
      = some (bs.foldl (fun st b => Base58.encLoopInner st.1 st.2 b (st.1.length - 1)) (buf, high))
    ∧ (bs.foldl (fun st b => Base58.encLoopInner st.1 st.2 b (st.1.length - 1))
        (buf, high)).1.length = buf.length := by
  intro bs
  induction bs with
  | nil =>
    intro buf high hne
    exact ⟨rfl, rfl⟩
  | cons b rest ih =>
    intro buf high hne
    have hpos : 0 < buf.length := List.length_pos.2 hne
    have hstep := encLoopInnerChk_eq (buf.length - 1) buf high b (by omega)
    have hL1 : (Base58.encLoopInner buf high b (buf.length - 1)).1.length = buf.length :=
      encLoopInner_length _ buf high b
    have hrne : (Base58.encLoopInner buf high b (buf.length - 1)).1 ≠ [] :=
      List.length_pos.1 (by rw [hL1]; exact hpos)
    obtain ⟨ih1, ih2⟩ := ih (Base58.encLoopInner buf high b (buf.length - 1)).1
      (Base58.encLoopInner buf high b (buf.length - 1)).2 hrne
    constructor
    · rw [List.foldl_cons, List.foldl_cons]
      show List.foldl (fun st b => match st with
          | none => none
          | some st => Base58.encLoopInnerChk st.1 st.2 b (st.1.length - 1))
        (Base58.encLoopInnerChk buf high b (buf.length - 1)) rest
        = some (List.foldl (fun st b => Base58.encLoopInner st.1 st.2 b (st.1.length - 1))
          (Base58.encLoopInner buf high b (buf.length - 1)) rest)
      rw [hstep]
      exact ih1
    · rw [List.foldl_cons]
      show (List.foldl (fun st b => Base58.encLoopInner st.1 st.2 b (st.1.length - 1))
          (Base58.encLoopInner buf high b (buf.length - 1)) rest).1.length = buf.length
      exact ih2.trans hL1

/-- Claim C5: the digit buffer of `(len(d)-z)*137/100 + 1` cells is
always sufficient — a bounds-instrumented copy of the encode loops, in
which every buffer access fails if its index is out of range, succeeds on
every input and returns exactly the uninstrumented state, and the buffer
length is never changed by the algorithm. -/
theorem base58_buffer_safe (d : List Nat) :
    Base58.encodeStateChk d = some (Base58.encodeState d)
    ∧ (Base58.encodeState d).1.length
        = (d.length - Base58.countZeroes d) * 137 / 100 + 1 := by
  obtain ⟨h1, h2⟩ := encodeFoldChk_eq (d.drop (Base58.countZeroes d))
    (List.replicate ((d.length - Base58.countZeroes d) * 137 / 100 + 1) 0)
    ((d.length - Base58.countZeroes d) * 137 / 100 + 1 - 1)
    (by simp)
  constructor
  · exact h1
  · rw [List.length_replicate] at h2
    exact h2

end Bcx
